import Mathlib

/-
  Verification of the gravwell/ingest muxer core (src/muxer.go) against its
  natural-language specification.

  Shallow embedding notes:
  * `entry.EntryTag` is an opaque dense tag identifier from the external
    `entry` package (out of scope per spec section 1); it is modelled as `Nat`.
    The reserved Gravwell tag id (`entry.GravwellTagId`, also external) is kept
    as an explicit parameter `gw` of the tag-translation functions, so every
    theorem quantifies over its possible values.
  * Go slices become `List`, Go maps become association lists whose lookup
    mirrors map semantics (reads of a missing key yield the zero value where
    the source relies on that).
  * Go panics (out-of-range indexing) are modelled by an explicit result
    (`none` / `.outOfRange`), never by a default value.
  * Stateful methods become pure functions from an explicit state to a
    result-and-state pair; channels become lists (sends append at the tail).
-/

namespace GravwellIngest

/-- Error values surfaced by muxer.go (the `Err...` variables at the top of
the file), restricted to the ones the formalised operations can produce. -/
inductive IngestErr
  | allConnsDown
  | notRunning
  | tagNotFound
  | tagMapInvalid
  | emergencyListOverflow
  | emptyTag
  | outOfSync
deriving DecidableEq, Repr

/-- An entry record. The spec (section 1) treats `entry.Entry` as opaque: a tag
plus an opaque payload; timestamp and source are irrelevant to the claims and
omitted. -/
structure Entry where
  tag : Nat
  data : List Nat
deriving DecidableEq, Repr

/-- The constant `maxEmergencyListSize` from muxer.go line 52. -/
def maxEmergencyListSize : Nat := 256

/-- The element type stored in the emergency queue (`emStruct`, muxer.go
lines 1480-1483): an optional single entry together with an optional batch. -/
structure emStruct where
  e : Option Entry
  ents : List Entry
deriving DecidableEq, Repr

/-- Result of `emergencyQueue.push`: either the overflow error or success with
the updated queue contents (the Go method mutates the guarded list and returns
`error`; the model returns the new list). -/
inductive PushResult
  | overflow
  | ok (q : List emStruct)
deriving DecidableEq, Repr

/-- Embedding of `emergencyQueue.push` (muxer.go lines 1504-1520): a nil entry
together with an empty batch is accepted without change; otherwise the item is
rejected with `ErrEmergencyListOverflow` when `eq.lst.Len() > maxEmergencyListSize`
and appended at the tail (`PushBack`) otherwise. -/
def eqPush (q : List emStruct) (e : Option Entry) (ents : List Entry) : PushResult :=
  if e = none ∧ ents = [] then .ok q
  else if maxEmergencyListSize < q.length then .overflow
  else .ok (q ++ [⟨e, ents⟩])

/-- The linear scan inside `tagTrans.Reverse` (muxer.go lines 1647-1651):
`for i := range tt { if tt[i] == t { return EntryTag(i) } }`, returning the
first matching index if any. -/
def scanIdx (t : Nat) : List Nat → Option Nat
  | [] => none
  | r :: rest => if r = t then some 0 else (scanIdx t rest).map (· + 1)

/-- Embedding of `tagTrans.Translate` (muxer.go lines 1617-1628). `gw` is the
reserved `entry.GravwellTagId`. The Go code returns `tt[0], false` for an
unknown local tag; on an empty translator that indexing panics, modelled as
`none`. Under the in-range branch `tt.getD t 0` coincides with the source's
`tt[t]`. -/
def Translate (gw : Nat) (tt : List Nat) (t : Nat) : Option (Nat × Bool) :=
  if t = gw then some (t, true)
  else if tt.length ≤ t then
    match tt with
    | [] => none
    | r :: _ => some (r, false)
  else some (tt.getD t 0, true)

/-- Embedding of `tagTrans.Reverse` (muxer.go lines 1642-1653): the Gravwell
id passes through; otherwise a linear scan returning 0 when not found. -/
def Reverse (gw : Nat) (tt : List Nat) (t : Nat) : Nat :=
  if t = gw then t
  else match scanIdx t tt with
    | some i => i
    | none => 0

/-- Result of `tagTrans.RegisterTag`: the out-of-sync error or the updated
translator. -/
inductive RegResult
  | outOfSync
  | ok (tt : List Nat)
deriving DecidableEq, Repr

/-- Embedding of `tagTrans.RegisterTag` (muxer.go lines 1630-1637): appending
is permitted only when `local == len(*tt)`. -/
def RegisterTag (tt : List Nat) (lcl rmt : Nat) : RegResult :=
  if lcl ≠ tt.length then .outOfSync else .ok (tt ++ [rmt])

/-- Result of `IngestMuxer.newTagTrans`: an error, a Go panic (out-of-range
slice write), or the built translator. -/
inductive TransResult
  | outOfRange
  | err (e : IngestErr)
  | ok (tt : List Nat)
deriving DecidableEq, Repr

/-- The loop body of `IngestMuxer.newTagTrans` (muxer.go lines 1430-1439),
iterating over the muxer tag map entries `(k, v)`: reject with
`ErrTagMapInvalid` when `int(v) > len(tt)`; look the name up on the connection
(`igst.GetTag`, modelled by the function `g`); write `tt[v] = tg`, which in Go
panics when `v == len(tt)`. -/
def newTagTransLoop (g : String → Option Nat) : List (String × Nat) → List Nat → TransResult
  | [], tt => .ok tt
  | (k, v) :: rest, tt =>
    if tt.length < v then .err .tagMapInvalid
    else match g k with
      | none => .err .tagNotFound
      | some tg =>
        if v < tt.length then newTagTransLoop g rest (tt.set v tg)
        else .outOfRange

/-- Embedding of `IngestMuxer.newTagTrans` (muxer.go lines 1425-1441):
allocate `make([]entry.EntryTag, len(im.tagMap))` (zero-filled), reject an
empty tag map with `ErrTagMapInvalid`, then run the loop. The Go map is
modelled as an association list with distinct keys. -/
def newTagTrans (g : String → Option Nat) (tagMap : List (String × Nat)) : TransResult :=
  if (List.replicate tagMap.length (0 : Nat)).length = 0 then .err .tagMapInvalid
  else newTagTransLoop g tagMap (List.replicate tagMap.length 0)

/-- The muxer lifecycle state (`muxState`, muxer.go lines 44-47). -/
inductive MuxSt
  | empty
  | running
  | closed
deriving DecidableEq, Repr

/-- The slice of muxer state that `WriteEntry` / `WriteBatch` touch: the
lifecycle state and the two producer channels, modelled as queues (a channel
send appends at the tail; capacity/blocking is not modelled, the claims under
test only describe the value sent). -/
structure WState where
  state : MuxSt
  eChan : List Entry
  bChan : List (List Entry)
deriving DecidableEq, Repr

/-- Embedding of `IngestMuxer.WriteEntry` (muxer.go lines 857-869): nil entry
is a no-op; a state other than `running` yields `ErrNotRunning`; otherwise the
entry is sent on `eChan`. -/
def WriteEntry (s : WState) (e : Option Entry) : Option IngestErr × WState :=
  match e with
  | none => (none, s)
  | some ent =>
    if s.state = MuxSt.running then (none, ⟨s.state, s.eChan ++ [ent], s.bChan⟩)
    else (some .notRunning, s)

/-- Embedding of `IngestMuxer.WriteBatch` (muxer.go lines 919-931): an empty
batch is a no-op; a state other than `running` yields `ErrNotRunning`;
otherwise the whole slice is sent on `bChan`. -/
def WriteBatch (s : WState) (b : List Entry) : Option IngestErr × WState :=
  if b.length = 0 then (none, s)
  else if s.state = MuxSt.running then (none, ⟨s.state, s.eChan, s.bChan ++ [b]⟩)
  else (some .notRunning, s)

/-- Association-list insert mirroring a Go map assignment `m[k] = v`:
overwrite the binding if the key is present, append it otherwise. -/
def mapInsert : List (String × Nat) → String → Nat → List (String × Nat)
  | [], k, v => [(k, v)]
  | (k0, v0) :: rest, k, v =>
    if k0 = k then (k, v) :: rest else (k0, v0) :: mapInsert rest k v

/-- Association-list lookup mirroring a Go map read `m[k]` (presence form). -/
def mapLookup : List (String × Nat) → String → Option Nat
  | [], _ => none
  | (k0, v0) :: rest, k => if k0 = k then some v0 else mapLookup rest k

/-- The rebuild loop `for i, v := range tags { tagMap[v] = entry.EntryTag(i) }`
(muxer.go lines 279-281 and 516-518), applied to an existing map `m` starting
at index `i`. -/
def rebuildFrom : List (String × Nat) → Nat → List String → List (String × Nat)
  | m, _, [] => m
  | m, i, v :: rest => rebuildFrom (mapInsert m v i) (i + 1) rest

/-- Index of the last occurrence of `name` in `ts`, offset by `i`; this is the
binding the rebuild loop leaves behind for `name`. -/
def lastIdxFrom : Nat → List String → String → Option Nat
  | _, [], _ => none
  | i, v :: rest, name =>
    match lastIdxFrom (i + 1) rest name with
    | some j => some j
    | none => if v = name then some i else none

/-- Modelled from the spec: `CheckTag` (character-set validation of tag names,
delegated per spec section 6) is repository code not under src/. The spec's
fatal error enumeration (section 4.2) includes the empty tag, so the model
rejects exactly the empty name and accepts all others. -/
def CheckTag (name : String) : Bool := !(name == "")

/-- The slice of muxer state that `NegotiateTag` touches: the ordered tag
table `tags`, the `name -> id` map `tagMap`, and the number of live (non-nil)
connections, kept as a count because the claims only ask how many
connection-level negotiations are performed. -/
structure TagState where
  tags : List String
  tagMap : List (String × Nat)
  conns : Nat
deriving DecidableEq, Repr

/-- Result of `NegotiateTag`: an error, or the returned tag id together with
the updated state and the number of connection-level `NegotiateTag` RPCs
performed. -/
inductive NegResult
  | err (e : IngestErr)
  | ok (tg : Nat) (s : TagState) (negCalls : Nat)
deriving DecidableEq, Repr

/-- Embedding of `IngestMuxer.NegotiateTag` (muxer.go lines 500-546):
`CheckTag` first; an already-present name returns its existing id with no
state change and no connection traffic; otherwise the name is appended to
`tags`, the whole map is rebuilt in place, the returned id is read back from
the map (a missing key would read as the zero value, hence `getD 0`), and each
live connection is asked to negotiate the name. -/
def negotiateTag (s : TagState) (name : String) : NegResult :=
  if CheckTag name then
    match mapLookup s.tagMap name with
    | some tg => .ok tg s 0
    | none =>
      .ok ((mapLookup (rebuildFrom s.tagMap 0 (s.tags ++ [name])) name).getD 0)
        ⟨s.tags ++ [name], rebuildFrom s.tagMap 0 (s.tags ++ [name]), s.conns⟩
        s.conns
  else .err .emptyTag

/-- The tag state produced by `newIngestMuxer` (muxer.go lines 277-281): the
configured tag list together with the map built by the index loop. -/
def mkMuxerTagState (cfg : List String) (n : Nat) : TagState :=
  ⟨cfg, rebuildFrom [] 0 cfg, n⟩

/-- Tag states reachable from construction with configured tag list `cfg`
under any sequence of successful `NegotiateTag` calls (failed calls leave the
state unchanged). -/
inductive ReachableFrom (cfg : List String) : TagState → Prop
  | init (n : Nat) : ReachableFrom cfg (mkMuxerTagState cfg n)
  | step (s : TagState) (name : String) (tg : Nat) (s2 : TagState) (k : Nat) :
      ReachableFrom cfg s → negotiateTag s name = .ok tg s2 k → ReachableFrom cfg s2

/-- The slice of muxer state `SyncContext` reads: the `connHot` counter, the
cache flag, the lengths of both channels, and the connection slots. A slot is
`none` when `igst[i]` is nil; `some r` holds the outcome of that connection's
`Sync()` call (`none` success, `some e` failure with error `e`). -/
structure SyncState where
  connHot : Nat
  cacheRunning : Bool
  eChanLen : Nat
  bChanLen : Nat
  igst : List (Option (Option IngestErr))
deriving DecidableEq, Repr

/-- Outcome of `SyncContext`. The busy-wait loop over non-empty channels
(muxer.go lines 558-572) terminates only through concurrent consumers, the
context, or the timeout; a sequential model cannot decide it, so that case is
the abstract outcome `blocked`. -/
inductive SyncOut
  | allConnsDown
  | blocked
  | ok
deriving DecidableEq, Repr

/-- Number of `Sync()` calls `SyncContext` performs: one per non-nil slot. -/
def syncCalls (igst : List (Option (Option IngestErr))) : Nat :=
  (igst.filter Option.isSome).length

/-- The counter of muxer.go lines 574-583: how many non-nil connections
returned exactly `ErrNotRunning` from `Sync()`. -/
def notRunningCount : List (Option (Option IngestErr)) → Nat
  | [] => 0
  | some (some IngestErr.notRunning) :: rest => notRunningCount rest + 1
  | _ :: rest => notRunningCount rest

/-- Embedding of `IngestMuxer.SyncContext` (muxer.go lines 552-589): return
`ErrAllConnsDown` immediately when `connHot == 0` and the cache is not
running; otherwise wait for the channels to drain (abstracted as `blocked`);
then call `Sync()` on every non-nil connection and return `ErrAllConnsDown`
exactly when the `ErrNotRunning` count equals `len(im.igst)`. -/
def syncContext (s : SyncState) : SyncOut × Nat :=
  if s.connHot = 0 ∧ s.cacheRunning = false then (.allConnsDown, 0)
  else if 0 < s.eChanLen ∨ 0 < s.bChanLen then (.blocked, 0)
  else if notRunningCount s.igst = s.igst.length then (.allConnsDown, syncCalls s.igst)
  else (.ok, syncCalls s.igst)

/-- Lookup after a map insert sees the new binding for that key and is
unchanged elsewhere. -/
theorem mapLookup_mapInsert (m : List (String × Nat)) (k k2 : String) (v : Nat) :
    mapLookup (mapInsert m k v) k2 = if k = k2 then some v else mapLookup m k2 := by
  induction m with
  | nil =>
    by_cases h : k = k2 <;> simp [mapInsert, mapLookup, h]
  | cons p rest ih =>
    obtain ⟨k0, v0⟩ := p
    by_cases h0 : k0 = k
    · subst h0
      by_cases h2 : k0 = k2 <;> simp [mapInsert, mapLookup, h2]
    · by_cases h02 : k0 = k2
      · subst h02
        have : ¬ k = k0 := fun hh => h0 hh.symm
        simp [mapInsert, mapLookup, h0, this]
      · simp [mapInsert, mapLookup, h0, h02, ih]

/-- Lookup after the rebuild loop: the last occurrence of the name in the
rebuilt tag list wins, and names not in the list keep their old binding. -/
theorem mapLookup_rebuildFrom (ts : List String) :
    ∀ (m : List (String × Nat)) (i : Nat) (name : String),
    mapLookup (rebuildFrom m i ts) name =
      match lastIdxFrom i ts name with
      | some j => some j
      | none => mapLookup m name := by
  induction ts with
  | nil => intro m i name; rfl
  | cons v rest ih =>
    intro m i name
    have hstep : rebuildFrom m i (v :: rest) = rebuildFrom (mapInsert m v i) (i + 1) rest := rfl
    rw [hstep, ih]
    cases hrec : lastIdxFrom (i + 1) rest name with
    | some j => simp [lastIdxFrom, hrec]
    | none =>
      simp only [lastIdxFrom, hrec, mapLookup_mapInsert]
      by_cases hv : v = name <;> simp [hv]

/-- A successful `lastIdxFrom` points at an occurrence of the name. -/
theorem lastIdxFrom_spec (ts : List String) :
    ∀ (i j : Nat) (name : String), lastIdxFrom i ts name = some j →
      i ≤ j ∧ ts.get? (j - i) = some name := by
  induction ts with
  | nil => intro i j name h; simp [lastIdxFrom] at h
  | cons v rest ih =>
    intro i j name h
    simp only [lastIdxFrom] at h
    cases hrec : lastIdxFrom (i + 1) rest name with
    | some j0 =>
      rw [hrec] at h
      have hj : j0 = j := by simpa using h
      subst hj
      obtain ⟨h1, h2⟩ := ih (i + 1) j0 name hrec
      refine ⟨by omega, ?_⟩
      have hji : j0 - i = (j0 - (i + 1)) + 1 := by omega
      rw [hji]
      simpa using h2
    | none =>
      rw [hrec] at h
      by_cases hv : v = name
      · simp only [hv, if_pos rfl] at h
        have hj : i = j := by simpa using h
        subst hj
        exact ⟨Nat.le_refl i, by simp [hv]⟩
      · simp [hv] at h

/-- `lastIdxFrom` fails exactly on absent names. -/
theorem lastIdxFrom_eq_none (ts : List String) :
    ∀ (i : Nat) (name : String), lastIdxFrom i ts name = none ↔ name ∉ ts := by
  induction ts with
  | nil => intro i name; simp [lastIdxFrom]
  | cons v rest ih =>
    intro i name
    simp only [lastIdxFrom]
    cases hrec : lastIdxFrom (i + 1) rest name with
    | some j =>
      have : name ∈ rest := by
        by_contra hmem
        rw [← ih (i + 1) name] at hmem
        rw [hrec] at hmem
        exact Option.noConfusion hmem
      simp [this]
    | none =>
      have hmem : name ∉ rest := (ih (i + 1) name).mp hrec
      by_cases hv : v = name <;> simp [hv, hmem, eq_comm]

/-- The last occurrence of a name appended at the end is its own index. -/
theorem lastIdxFrom_append_self (ts : List String) :
    ∀ (i : Nat) (name : String), lastIdxFrom i (ts ++ [name]) name = some (i + ts.length) := by
  induction ts with
  | nil => intro i name; simp [lastIdxFrom]
  | cons v rest ih =>
    intro i name
    have hstep : (v :: rest) ++ [name] = v :: (rest ++ [name]) := rfl
    rw [hstep]
    simp only [lastIdxFrom, ih (i + 1) name]
    congr 1
    simp
    omega

/-- On a duplicate-free list every occurrence is the last one. -/
theorem lastIdxFrom_nodup (ts : List String) :
    ∀ (i k : Nat) (name : String), ts.Nodup → ts.get? k = some name →
      lastIdxFrom i ts name = some (i + k) := by
  induction ts with
  | nil => intro i k name _ h; simp at h
  | cons v rest ih =>
    intro i k name hnd hget
    have hnd2 := List.nodup_cons.mp hnd
    cases k with
    | zero =>
      have hv : v = name := by simpa using hget
      subst hv
      have : lastIdxFrom (i + 1) rest v = none := (lastIdxFrom_eq_none rest (i + 1) v).mpr hnd2.1
      simp [lastIdxFrom, this]
    | succ k0 =>
      have hget2 : rest.get? k0 = some name := by simpa using hget
      have := ih (i + 1) k0 name hnd2.2 hget2
      simp only [lastIdxFrom, this]
      congr 1
      omega

/-- The reverse scan fails exactly on absent remote ids. -/
theorem scanIdx_eq_none (t : Nat) (tt : List Nat) : scanIdx t tt = none ↔ t ∉ tt := by
  induction tt with
  | nil => simp [scanIdx]
  | cons r rest ih =>
    by_cases hr : r = t
    · simp [scanIdx, hr]
    · have hr2 : ¬ t = r := fun h => hr h.symm
      simp only [scanIdx, if_neg hr]
      rw [Option.map_eq_none', ih]
      simp [List.mem_cons, hr2]

/-- A successful reverse scan returns the first index holding the id. -/
theorem scanIdx_spec (t : Nat) (tt : List Nat) :
    ∀ i, scanIdx t tt = some i →
      tt.get? i = some t ∧ ∀ j, j < i → tt.get? j ≠ some t := by
  induction tt with
  | nil => intro i h; simp [scanIdx] at h
  | cons r rest ih =>
    intro i h
    by_cases hr : r = t
    · simp only [scanIdx, if_pos hr] at h
      have hi : 0 = i := by simpa using h
      subst hi
      exact ⟨by simp [hr], by omega⟩
    · simp only [scanIdx, if_neg hr] at h
      cases hrec : scanIdx t rest with
      | none => rw [hrec] at h; simp at h
      | some i0 =>
        rw [hrec] at h
        have hi : i0 + 1 = i := by simpa using h
        subst hi
        obtain ⟨h1, h2⟩ := ih i0 hrec
        refine ⟨by simpa using h1, ?_⟩
        intro j hj
        cases j with
        | zero => simp [hr]
        | succ j0 =>
          have : j0 < i0 := by omega
          simpa using h2 j0 this

/-- The reverse scan finds an id located at `i` with no earlier occurrence. -/
theorem scanIdx_first (t : Nat) (tt : List Nat) :
    ∀ i, tt.get? i = some t → (∀ j, j < i → tt.get? j ≠ some t) →
      scanIdx t tt = some i := by
  induction tt with
  | nil => intro i h _; simp at h
  | cons r rest ih =>
    intro i hget hmin
    cases i with
    | zero =>
      have hr : r = t := by simpa using hget
      simp [scanIdx, hr]
    | succ i0 =>
      have hr : r ≠ t := by
        intro hr
        exact hmin 0 (by omega) (by simp [hr])
      have hget2 : rest.get? i0 = some t := by simpa using hget
      have hmin2 : ∀ j, j < i0 → rest.get? j ≠ some t := by
        intro j hj hbad
        exact hmin (j + 1) (by omega) (by simpa using hbad)
      simp [scanIdx, hr, ih i0 hget2 hmin2]

/-- Indexing into a replicated list. -/
theorem get?_replicate (a : Nat) : ∀ (n i : Nat), i < n →
    (List.replicate n a).get? i = some a := by
  intro n
  induction n with
  | zero => intro i h; omega
  | succ n0 ih =>
    intro i h
    cases i with
    | zero => simp [List.replicate]
    | succ i0 =>
      have := ih i0 (by omega)
      simpa [List.replicate] using this

/-- The `newTagTrans` loop only overwrites slots, so a successful run keeps
the translator length. -/
theorem newTagTransLoop_length (g : String → Option Nat) (entries : List (String × Nat)) :
    ∀ (tt tt2 : List Nat), newTagTransLoop g entries tt = .ok tt2 →
      tt2.length = tt.length := by
  induction entries with
  | nil =>
    intro tt tt2 h
    simp only [newTagTransLoop] at h
    have : tt = tt2 := by simpa using h
    rw [this]
  | cons p rest ih =>
    intro tt tt2 h
    obtain ⟨k, v⟩ := p
    simp only [newTagTransLoop] at h
    by_cases h1 : tt.length < v
    · simp [h1] at h
    · rw [if_neg h1] at h
      cases hg : g k with
      | none => rw [hg] at h; simp at h
      | some tg =>
        rw [hg] at h
        have h3 : (if v < tt.length then newTagTransLoop g rest (tt.set v tg)
            else TransResult.outOfRange) = TransResult.ok tt2 := h
        by_cases h2 : v < tt.length
        · rw [if_pos h2] at h3
          have := ih (tt.set v tg) tt2 h3
          simpa using this
        · rw [if_neg h2] at h3; simp at h3

/-- A non-empty translator never panics in `Translate`. -/
theorem translate_ne_none (gw t : Nat) (tt : List Nat) (h : tt ≠ []) :
    Translate gw tt t ≠ none := by
  unfold Translate
  by_cases h1 : t = gw
  · simp [h1]
  · rw [if_neg h1]
    by_cases h2 : tt.length ≤ t
    · rw [if_pos h2]
      cases tt with
      | nil => exact absurd rfl h
      | cons r rest => simp
    · rw [if_neg h2]; simp

/-- When every slot holds a connection whose sync reports `ErrNotRunning`,
the counter reaches the slot count. -/
theorem notRunningCount_full (igst : List (Option (Option IngestErr))) :
    (∀ slot ∈ igst, slot = some (some .notRunning)) →
      notRunningCount igst = igst.length := by
  induction igst with
  | nil => intro _; rfl
  | cons slot rest ih =>
    intro h
    have hs := h slot (by simp)
    subst hs
    have := ih (fun s hs2 => h s (by simp [hs2]))
    simp [notRunningCount, this]

/-- Master invariant of the muxer tag table: in every reachable state the map
is exactly the last-occurrence index of the tag list, the configured tags
remain a prefix, and a duplicate-free configuration keeps the list
duplicate-free. -/
theorem reachable_tagMap_spec (cfg : List String) (s : TagState) (h : ReachableFrom cfg s) :
    (∀ name, mapLookup s.tagMap name = lastIdxFrom 0 s.tags name) ∧
    (∃ ext, s.tags = cfg ++ ext) ∧
    (cfg.Nodup → s.tags.Nodup) := by
  induction h with
  | init n =>
    refine ⟨?_, ⟨[], by simp [mkMuxerTagState]⟩, fun h2 => by simpa [mkMuxerTagState] using h2⟩
    intro name
    show mapLookup (rebuildFrom [] 0 cfg) name = lastIdxFrom 0 cfg name
    rw [mapLookup_rebuildFrom]
    cases lastIdxFrom 0 cfg name <;> simp [mapLookup]
  | step s name tg s2 k hr heq ih =>
    obtain ⟨ih1, ⟨ext, hext⟩, ihnd⟩ := ih
    unfold negotiateTag at heq
    by_cases hct : CheckTag name
    · rw [if_pos hct] at heq
      cases hlk : mapLookup s.tagMap name with
      | some tg0 =>
        rw [hlk] at heq
        have hs2 : s = s2 := by
          have := heq
          simp only [NegResult.ok.injEq] at this
          exact this.2.1
        rw [← hs2]
        exact ⟨ih1, ⟨ext, hext⟩, ihnd⟩
      | none =>
        rw [hlk] at heq
        have hs2 : s2 = ⟨s.tags ++ [name], rebuildFrom s.tagMap 0 (s.tags ++ [name]), s.conns⟩ := by
          simp only [NegResult.ok.injEq] at heq
          exact heq.2.1.symm
        subst hs2
        have hnotmem : name ∉ s.tags := by
          intro hmem
          have hnone : lastIdxFrom 0 s.tags name = none := by
            rw [← ih1 name]; exact hlk
          exact (lastIdxFrom_eq_none s.tags 0 name).mp hnone hmem
        refine ⟨?_, ⟨ext ++ [name], by simp [hext]⟩, ?_⟩
        · intro nm
          show mapLookup (rebuildFrom s.tagMap 0 (s.tags ++ [name])) nm =
            lastIdxFrom 0 (s.tags ++ [name]) nm
          rw [mapLookup_rebuildFrom]
          cases hli : lastIdxFrom 0 (s.tags ++ [name]) nm with
          | some j => simp
          | none =>
            simp only
            rw [ih1 nm]
            rw [lastIdxFrom_eq_none] at hli ⊢
            intro hmem
            exact hli (List.mem_append_left _ hmem)
        · intro hnd
          have hnds : s.tags.Nodup := ihnd hnd
          simp [List.nodup_append, hnds, hnotmem]
    · rw [if_neg hct] at heq
      exact absurd heq (by simp)

/-- Short form of `List.getD` through a successful `get?`. -/
theorem getD_of_get? (tt : List Nat) (t r : Nat) (h : tt.get? t = some r) :
    tt.getD t 0 = r := by
  rw [List.getD_eq_getD_get?, h]
  rfl

/-- Claim C1, counterexample. The claim says `push` with a non-empty payload
returns the overflow error exactly when the queue already holds 256 items and
that the queue never exceeds 256 items. In the code (muxer.go line 1513) the
guard is `eq.lst.Len() > maxEmergencyListSize`, so a push onto a queue of
exactly 256 items succeeds and yields 257 items. -/
theorem C1_counterexample :
    (List.replicate 256 (⟨some ⟨0, []⟩, []⟩ : emStruct)).length = 256 ∧
    eqPush (List.replicate 256 (⟨some ⟨0, []⟩, []⟩ : emStruct)) (some ⟨0, []⟩) [] =
      .ok (List.replicate 256 (⟨some ⟨0, []⟩, []⟩ : emStruct) ++
        ([⟨some ⟨0, []⟩, []⟩] : List emStruct)) ∧
    (List.replicate 256 (⟨some ⟨0, []⟩, []⟩ : emStruct) ++
      ([⟨some ⟨0, []⟩, []⟩] : List emStruct)).length = 257 := by
  have h256 : (List.replicate 256 (⟨some ⟨0, []⟩, []⟩ : emStruct)).length = 256 :=
    List.length_replicate 256 _
  refine ⟨h256, ?_, ?_⟩
  · have hov : ¬ (maxEmergencyListSize <
        (List.replicate 256 (⟨some ⟨0, []⟩, []⟩ : emStruct)).length) := by
      rw [h256]
      show ¬ (256 < 256)
      omega
    have hne : ¬ ((some (⟨0, []⟩ : Entry)) = none ∧ ([] : List Entry) = []) := by
      intro hc
      exact Option.noConfusion hc.1
    unfold eqPush
    rw [if_neg hne, if_neg hov]
  · rw [List.length_append, h256]
    rfl

/-- Claim C1, amended: the emergency queue never holds more than 257 items;
`push` with a non-empty payload returns the overflow error exactly when the
queue already holds more than 256 items, and otherwise appends the item at
the tail; `push` with a nil entry and an empty batch returns success and
leaves the queue unchanged. -/
theorem C1_push_amended (q : List emStruct) (e : Option Entry) (ents : List Entry) :
    (e = none → ents = [] → eqPush q e ents = .ok q) ∧
    (¬(e = none ∧ ents = []) →
      (256 < q.length → eqPush q e ents = .overflow) ∧
      (q.length ≤ 256 → eqPush q e ents = .ok (q ++ [⟨e, ents⟩]))) ∧
    (∀ q2, eqPush q e ents = .ok q2 → q.length ≤ 257 → q2.length ≤ 257) := by
  refine ⟨?_, ?_, ?_⟩
  · intro he hents; simp [eqPush, he, hents]
  · intro hne
    constructor
    · intro hlen; simp [eqPush, hne, maxEmergencyListSize, hlen]
    · intro hlen
      have hov : ¬ (maxEmergencyListSize < q.length) := by
        show ¬ (256 < q.length)
        omega
      simp [eqPush, hne, hov]
  · intro q2 hq hlen
    unfold eqPush at hq
    by_cases hne : e = none ∧ ents = []
    · rw [if_pos hne] at hq
      injection hq with hq2
      subst hq2
      exact hlen
    · rw [if_neg hne] at hq
      by_cases hov : maxEmergencyListSize < q.length
      · rw [if_pos hov] at hq; simp at hq
      · rw [if_neg hov] at hq
        injection hq with hq2
        subst hq2
        have hov2 : ¬ (256 < q.length) := hov
        simp only [List.length_append, List.length_cons, List.length_nil]
        omega

/-- Claim C1 witness: a push onto an empty queue appends, and a push with nil
entry and empty batch is a no-op. -/
theorem C1_witness :
    eqPush [] (some ⟨1, [2]⟩) [] = .ok [⟨some ⟨1, [2]⟩, []⟩] ∧
    eqPush [⟨none, [⟨0, []⟩]⟩] none [] = .ok [⟨none, [⟨0, []⟩]⟩] :=
  ⟨((C1_push_amended [] (some ⟨1, [2]⟩) []).2.1 (by simp)).2 (by simp),
   (C1_push_amended [⟨none, [⟨0, []⟩]⟩] none []).1 rfl rfl⟩

/-- Claim C2, counterexample. The claim asserts the roundtrip
`Reverse (Translate t).fst = t` whenever `t < len(tt)`. For every possible
value of the reserved Gravwell id there is a translator with a duplicated
remote id for which the roundtrip lands on the earlier index: `Reverse` is a
first-match linear scan (muxer.go lines 1647-1651). The first two conjuncts
show the concrete instance for Gravwell id 0; the last shows a failing
instance exists for every possible Gravwell id. -/
theorem C2_counterexample :
    Translate 0 [5, 5] 1 = some (5, true) ∧
    Reverse 0 [5, 5] 5 = 0 ∧
    (∀ gw : Nat,
      (if gw = 1 then 2 else 1) < ([gw + 3, gw + 3, gw + 3] : List Nat).length ∧
      Translate gw [gw + 3, gw + 3, gw + 3] (if gw = 1 then 2 else 1) = some (gw + 3, true) ∧
      Reverse gw [gw + 3, gw + 3, gw + 3] (gw + 3) = 0 ∧
      (0 : Nat) ≠ (if gw = 1 then 2 else 1)) := by
  refine ⟨by decide, by decide, ?_⟩
  intro gw
  by_cases h1 : gw = 1
  · subst h1
    exact ⟨by decide, by decide, by decide, by decide⟩
  · have ht : (if gw = 1 then 2 else 1) = 1 := if_neg h1
    rw [ht]
    refine ⟨by simp, ?_, ?_, by simp⟩
    · have hne : ¬ (1 = gw) := fun h => h1 h.symm
      have hlen : ¬ (([gw + 3, gw + 3, gw + 3] : List Nat).length ≤ 1) := by simp
      simp [Translate, hne, hlen, List.getD]
    · have hne : ¬ (gw + 3 = gw) := by omega
      simp [Reverse, hne, scanIdx]

/-- Claim C2, amended: the roundtrip
`Reverse gw tt (Translate gw tt t).fst = t` holds for `t` with an entry in
`tt` provided additionally that either `t` is the reserved Gravwell id, or
the remote id stored at `t` is not the Gravwell id and occurs at no earlier
index of the translator. -/
theorem C2_roundtrip_amended (gw : Nat) (tt : List Nat) (t r : Nat)
    (hget : tt.get? t = some r)
    (hcond : t = gw ∨ (r ≠ gw ∧ ∀ j, j < t → tt.get? j ≠ some r)) :
    ∀ p, Translate gw tt t = some p → Reverse gw tt p.1 = t := by
  intro p hp
  by_cases hgw : t = gw
  · rw [hgw] at hp ⊢
    simp only [Translate, if_pos rfl] at hp
    have hpe : p = (gw, true) := by simpa using hp.symm
    rw [hpe]
    simp [Reverse]
  · cases hcond with
    | inl h => exact absurd h hgw
    | inr hc =>
      obtain ⟨hrgw, hmin⟩ := hc
      have hlt : t < tt.length := by
        by_contra hge
        rw [List.get?_eq_none.mpr (by omega)] at hget
        exact Option.noConfusion hget
      have hnle : ¬ (tt.length ≤ t) := by omega
      simp only [Translate, if_neg hgw, if_neg hnle] at hp
      have hgd : tt.getD t 0 = r := getD_of_get? tt t r hget
      rw [hgd] at hp
      have hpe : p = (r, true) := by simpa using hp.symm
      rw [hpe]
      have hscan : scanIdx r tt = some t := scanIdx_first r tt t hget hmin
      simp [Reverse, hrgw, hscan]

/-- Claim C2 witness: on an injective translator the roundtrip restores the
local tag. -/
theorem C2_witness : Reverse 0 [5, 6] 6 = 1 :=
  C2_roundtrip_amended 0 [5, 6] 1 6 (by decide)
    (Or.inr ⟨by decide, by decide⟩) (6, true) (by decide)

/-- Claim C3, counterexample. The claim describes `Translate` for every
translator and local tag. Whatever the reserved Gravwell id `gw` is: on the
empty translator the fallback access `tt[0]` panics instead of returning
`(tt[0], false)`, and a Gravwell-valued local tag within range returns
`(t, true)` rather than `(tt[t], true)` because the Gravwell check precedes
the range check. The first two conjuncts show the concrete instances for
Gravwell id 0; the last shows failing instances exist for every possible
Gravwell id. -/
theorem C3_counterexample :
    Translate 0 [] 1 = none ∧
    Translate 0 [5] 0 = some (0, true) ∧
    (∀ gw : Nat,
      Translate gw [] (gw + 1) = none ∧
      Translate gw (List.replicate (gw + 1) (gw + 5)) gw = some (gw, true) ∧
      (List.replicate (gw + 1) (gw + 5)).get? gw = some (gw + 5) ∧
      gw + 5 ≠ gw) := by
  refine ⟨by decide, by decide, ?_⟩
  intro gw
  refine ⟨?_, ?_, ?_, by omega⟩
  · have h1 : ¬ (gw + 1 = gw) := by omega
    simp [Translate, h1]
  · simp [Translate]
  · exact get?_replicate (gw + 5) (gw + 1) gw (by omega)

/-- Claim C3, amended: `Translate` returns `(t, true)` when `t` is the
reserved Gravwell id (this case takes priority); otherwise `(tt[t], true)`
when `t` is in range; otherwise, for a non-empty translator, `(tt[0], false)`;
for an empty translator and a non-Gravwell tag the access `tt[0]` is out of
range (a Go panic, modelled as `none`). -/
theorem C3_translate_amended (gw : Nat) (tt : List Nat) (t : Nat) :
    (t = gw → Translate gw tt t = some (t, true)) ∧
    (t ≠ gw → ∀ r, tt.get? t = some r → Translate gw tt t = some (r, true)) ∧
    (t ≠ gw → tt.length ≤ t → ∀ r rest, tt = r :: rest → Translate gw tt t = some (r, false)) ∧
    (t ≠ gw → tt = [] → Translate gw tt t = none) := by
  refine ⟨fun h => by simp [Translate, h], ?_, ?_, ?_⟩
  · intro hne r hget
    have hlt : t < tt.length := by
      by_contra hge
      rw [List.get?_eq_none.mpr (by omega)] at hget
      exact Option.noConfusion hget
    have hnle : ¬ (tt.length ≤ t) := by omega
    have hget2 : tt[t]? = some r := by rw [← List.get?_eq_getElem?]; exact hget
    simp [Translate, hne, hnle, hget2]
  · intro hne hle r rest hcons
    subst hcons
    have hle2 : rest.length + 1 ≤ t := by simpa using hle
    simp [Translate, hne, hle2]
  · intro hne hnil
    subst hnil
    simp [Translate, hne]

/-- Claim C3 witness: the three return shapes of `Translate` at concrete
inputs. -/
theorem C3_witness :
    Translate 9 [4, 5] 9 = some (9, true) ∧
    Translate 9 [4, 5] 1 = some (5, true) ∧
    Translate 9 [4, 5] 7 = some (4, false) :=
  ⟨(C3_translate_amended 9 [4, 5] 9).1 rfl,
   (C3_translate_amended 9 [4, 5] 1).2.1 (by decide) 5 (by decide),
   (C3_translate_amended 9 [4, 5] 7).2.2.1 (by decide) (by decide) 4 [5] rfl⟩

/-- Claim C4, counterexample. The claim says a name already present in the
tag map is returned unconditionally, but `NegotiateTag` runs `CheckTag`
before the lookup (muxer.go line 501): a present name that fails validation
(for example an empty configured tag) gets the validation error instead of
its id. -/
theorem C4_counterexample :
    mapLookup [("", 0)] "" = some 0 ∧
    negotiateTag ⟨[""], [("", 0)], 3⟩ "" = .err .emptyTag :=
  ⟨rfl, rfl⟩

/-- Claim C4, amended: for a name that passes `CheckTag`, `NegotiateTag` is
idempotent — a present name returns its existing id with the state unchanged
and no connection-level negotiation; an absent name is appended at the end of
the tag table and the returned id is the table length before the call. -/
theorem C4_negotiate_amended (s : TagState) (name : String) (hct : CheckTag name = true) :
    (∀ tg, mapLookup s.tagMap name = some tg → negotiateTag s name = .ok tg s 0) ∧
    (mapLookup s.tagMap name = none →
      negotiateTag s name =
        .ok s.tags.length
          ⟨s.tags ++ [name], rebuildFrom s.tagMap 0 (s.tags ++ [name]), s.conns⟩
          s.conns ∧
      (s.tags ++ [name]).get? s.tags.length = some name) := by
  constructor
  · intro tg h
    simp [negotiateTag, hct, h]
  · intro h
    constructor
    · have hlook : mapLookup (rebuildFrom s.tagMap 0 (s.tags ++ [name])) name =
          some s.tags.length := by
        rw [mapLookup_rebuildFrom]
        rw [lastIdxFrom_append_self s.tags 0 name]
        simp
      simp [negotiateTag, hct, h, hlook]
    · rw [List.get?_append_right (Nat.le_refl _)]
      simp

/-- Claim C4 witness: negotiating a present name returns its id and changes
nothing; negotiating a fresh name appends it with id equal to the old table
length. -/
theorem C4_witness :
    negotiateTag ⟨["a"], [("a", 0)], 2⟩ "a" = .ok 0 ⟨["a"], [("a", 0)], 2⟩ 0 ∧
    negotiateTag ⟨["a"], [("a", 0)], 2⟩ "b" =
      .ok 1 ⟨["a", "b"], rebuildFrom [("a", 0)] 0 ["a", "b"], 2⟩ 2 :=
  ⟨(C4_negotiate_amended ⟨["a"], [("a", 0)], 2⟩ "a" (by decide)).1 0 (by decide),
   ((C4_negotiate_amended ⟨["a"], [("a", 0)], 2⟩ "b" (by decide)).2 (by decide)).1⟩

/-- Claim C5, confirmed: `RegisterTag` succeeds exactly when the local tag
equals the translator length, appending the remote id at the end; any other
local tag yields the out-of-sync error with no new translator. -/
theorem C5_registerTag (tt : List Nat) (lcl rmt : Nat) :
    (lcl = tt.length →
      RegisterTag tt lcl rmt = .ok (tt ++ [rmt]) ∧
      (tt ++ [rmt]).length = tt.length + 1 ∧
      (tt ++ [rmt]).getLast? = some rmt) ∧
    (lcl ≠ tt.length → RegisterTag tt lcl rmt = .outOfSync) := by
  constructor
  · intro h
    refine ⟨by simp [RegisterTag, h], by simp, List.getLast?_concat tt⟩
  · intro h
    simp [RegisterTag, h]

/-- Claim C5 witness: appending at the exact length succeeds; any other index
is out of sync. -/
theorem C5_witness :
    RegisterTag [7] 1 5 = .ok [7, 5] ∧ RegisterTag [7] 0 5 = .outOfSync :=
  ⟨((C5_registerTag [7] 1 5).1 (by decide)).1, (C5_registerTag [7] 0 5).2 (by decide)⟩

/-- Claim C6, confirmed: `WriteEntry` with a nil entry and `WriteBatch` with
an empty batch succeed without touching any channel in every state; with a
real payload, a state other than Running returns `ErrNotRunning` leaving the
channels unchanged, and Running appends the entry to `eChan` (resp. the batch
to `bChan`). -/
theorem C6_write (s : WState) (ent : Entry) (b : List Entry) :
    (WriteEntry s none = (none, s)) ∧
    (WriteBatch s [] = (none, s)) ∧
    (s.state ≠ .running →
      WriteEntry s (some ent) = (some .notRunning, s) ∧
      (b ≠ [] → WriteBatch s b = (some .notRunning, s))) ∧
    (s.state = .running →
      WriteEntry s (some ent) = (none, ⟨s.state, s.eChan ++ [ent], s.bChan⟩) ∧
      (b ≠ [] → WriteBatch s b = (none, ⟨s.state, s.eChan, s.bChan ++ [b]⟩))) := by
  refine ⟨rfl, rfl, ?_, ?_⟩
  · intro h
    refine ⟨by simp [WriteEntry, h], ?_⟩
    intro hb
    have hlen : ¬ b.length = 0 := by simpa [List.length_eq_zero] using hb
    simp [WriteBatch, hlen, h]
  · intro h
    refine ⟨by simp [WriteEntry, h], ?_⟩
    intro hb
    have hlen : ¬ b.length = 0 := by simpa [List.length_eq_zero] using hb
    simp [WriteBatch, hlen, h]

/-- Claim C6 witness: the Running and non-Running behaviors of both write
calls at concrete states. -/
theorem C6_witness :
    WriteEntry ⟨.running, [], []⟩ (some ⟨1, []⟩) = (none, ⟨.running, [⟨1, []⟩], []⟩) ∧
    WriteEntry ⟨.closed, [], []⟩ (some ⟨1, []⟩) = (some .notRunning, ⟨.closed, [], []⟩) ∧
    WriteBatch ⟨.running, [], []⟩ [⟨2, []⟩] = (none, ⟨.running, [], [[⟨2, []⟩]]⟩) :=
  ⟨((C6_write ⟨.running, [], []⟩ ⟨1, []⟩ []).2.2.2 rfl).1,
   ((C6_write ⟨.closed, [], []⟩ ⟨1, []⟩ []).2.2.1 (by decide)).1,
   ((C6_write ⟨.running, [], []⟩ ⟨1, []⟩ [⟨2, []⟩]).2.2.2 rfl).2 (by decide)⟩

/-- Claim C7, counterexample. The second half of the claim says Sync returns
`AllConnsDown` when every connection's sync call reports `ErrNotRunning`.
The code compares the `ErrNotRunning` count against `len(im.igst)`, counting
nil slots in the denominator (muxer.go lines 574-587): with one nil slot and
one connection whose sync reports `ErrNotRunning`, the call succeeds. -/
theorem C7_counterexample :
    notRunningCount [none, some (some IngestErr.notRunning)] = 1 ∧
    syncCalls [none, some (some IngestErr.notRunning)] = 1 ∧
    syncContext ⟨0, true, 0, 0, [none, some (some .notRunning)]⟩ = (.ok, 1) :=
  ⟨rfl, rfl, rfl⟩

/-- Claim C7, amended: `SyncContext` returns `AllConnsDown` without syncing
any connection whenever `conn_hot == 0` and the cache is not running; and,
once past that check with drained channels, it returns `AllConnsDown`
whenever every slot holds a connection whose sync call reports
`ErrNotRunning`. -/
theorem C7_sync_amended (s : SyncState) :
    (s.connHot = 0 → s.cacheRunning = false → syncContext s = (.allConnsDown, 0)) ∧
    (s.eChanLen = 0 → s.bChanLen = 0 → ¬(s.connHot = 0 ∧ s.cacheRunning = false) →
      (∀ slot ∈ s.igst, slot = some (some .notRunning)) →
      (syncContext s).1 = .allConnsDown) := by
  constructor
  · intro h1 h2
    simp [syncContext, h1, h2]
  · intro he hb hfirst hall
    have hcnt := notRunningCount_full s.igst hall
    simp [syncContext, hfirst, he, hb, hcnt]

/-- Claim C7 witness: the immediate `AllConnsDown` with zero sync calls, and
the all-NotRunning case over fully populated slots. -/
theorem C7_witness :
    syncContext ⟨0, false, 5, 0, [some none]⟩ = (.allConnsDown, 0) ∧
    (syncContext ⟨1, false, 0, 0,
      [some (some .notRunning), some (some .notRunning)]⟩).1 = .allConnsDown :=
  ⟨(C7_sync_amended ⟨0, false, 5, 0, [some none]⟩).1 rfl rfl,
   (C7_sync_amended ⟨1, false, 0, 0,
      [some (some .notRunning), some (some .notRunning)]⟩).2 rfl rfl
     (by decide) (by decide)⟩

/-- Claim C8, counterexample. The claim states the two invariant forms are
equivalent, but with a duplicated configured tag name the construction loop
leaves `tag_map[name]` at the last index: `tags[tag_map[name]] == name`
holds, while `tag_map[tags[0]] == 0` fails. -/
theorem C8_counterexample :
    ReachableFrom ["a", "a"] (mkMuxerTagState ["a", "a"] 0) ∧
    (mkMuxerTagState ["a", "a"] 0).tags.get? 0 = some "a" ∧
    mapLookup (mkMuxerTagState ["a", "a"] 0).tagMap "a" = some 1 :=
  ⟨ReachableFrom.init 0, rfl, by decide⟩

/-- Claim C8, amended: in every reachable tag state,
`tags[tag_map[name]] == name` for every name in the map; the second form
`tag_map[tags[i]] == i` holds whenever the configured initial tag list is
duplicate-free; the configured tags remain a prefix and `NegotiateTag` only
ever appends (never removes or reorders). -/
theorem C8_invariant_amended (cfg : List String) (s : TagState) (h : ReachableFrom cfg s) :
    (∀ name j, mapLookup s.tagMap name = some j → s.tags.get? j = some name) ∧
    (cfg.Nodup → ∀ k, k < s.tags.length → mapLookup s.tagMap (s.tags.getD k "") = some k) ∧
    (∃ ext, s.tags = cfg ++ ext) ∧
    (∀ name tg s2 m, negotiateTag s name = .ok tg s2 m →
      s2.tags = s.tags ∨ s2.tags = s.tags ++ [name]) := by
  obtain ⟨h1, h2, h3⟩ := reachable_tagMap_spec cfg s h
  refine ⟨?_, ?_, h2, ?_⟩
  · intro name j hlk
    rw [h1 name] at hlk
    have hsp := lastIdxFrom_spec s.tags 0 j name hlk
    simpa using hsp.2
  · intro hnd k hk
    have hnds : s.tags.Nodup := h3 hnd
    cases hg : s.tags.get? k with
    | none =>
      rw [List.get?_eq_none] at hg
      omega
    | some v =>
      have hgd : s.tags.getD k "" = v := by
        rw [List.getD_eq_getD_get?, hg]
        rfl
      rw [hgd, h1]
      have := lastIdxFrom_nodup s.tags 0 k v hnds hg
      simpa using this
  · intro name tg s2 m heq
    unfold negotiateTag at heq
    by_cases hct : CheckTag name
    · rw [if_pos hct] at heq
      cases hlk : mapLookup s.tagMap name with
      | some tg0 =>
        rw [hlk] at heq
        left
        simp only [NegResult.ok.injEq] at heq
        rw [← heq.2.1]
      | none =>
        rw [hlk] at heq
        right
        simp only [NegResult.ok.injEq] at heq
        rw [← heq.2.1]
    · rw [if_neg hct] at heq
      exact absurd heq (by simp)

/-- Claim C8 witness: both invariant forms at a concrete reachable state built
from a duplicate-free configuration. -/
theorem C8_witness :
    (mkMuxerTagState ["x", "y"] 1).tags.get? 1 = some "y" ∧
    mapLookup (mkMuxerTagState ["x", "y"] 1).tagMap
      ((mkMuxerTagState ["x", "y"] 1).tags.getD 0 "") = some 0 :=
  ⟨(C8_invariant_amended ["x", "y"] _ (ReachableFrom.init 1)).1 "y" 1 (by decide),
   (C8_invariant_amended ["x", "y"] _ (ReachableFrom.init 1)).2.1 (by decide) 0 (by decide)⟩

/-- Claim C9, confirmed: `Reverse` passes the reserved Gravwell id through;
otherwise it returns the smallest index holding the remote id when present,
and 0 when the id does not occur in the translator. -/
theorem C9_reverse (gw : Nat) (tt : List Nat) (r : Nat) :
    (r = gw → Reverse gw tt r = r) ∧
    (r ≠ gw → r ∈ tt →
      tt.get? (Reverse gw tt r) = some r ∧
      ∀ j, j < Reverse gw tt r → tt.get? j ≠ some r) ∧
    (r ≠ gw → r ∉ tt → Reverse gw tt r = 0) := by
  refine ⟨fun h => by simp [Reverse, h], ?_, ?_⟩
  · intro hne hmem
    cases hscan : scanIdx r tt with
    | none =>
      exact absurd hmem ((scanIdx_eq_none r tt).mp hscan)
    | some i =>
      have hspec := scanIdx_spec r tt i hscan
      have hrev : Reverse gw tt r = i := by simp [Reverse, hne, hscan]
      rw [hrev]
      exact hspec
  · intro hne hmem
    have hscan : scanIdx r tt = none := (scanIdx_eq_none r tt).mpr hmem
    simp [Reverse, hne, hscan]

/-- Claim C9 witness: the found, not-found, and pass-through behaviors at
concrete inputs. -/
theorem C9_witness :
    [3, 4, 3].get? (Reverse 0 [3, 4, 3] 4) = some 4 ∧
    Reverse 0 [3, 4, 3] 9 = 0 ∧
    Reverse 7 [3, 4, 3] 7 = 7 :=
  ⟨((C9_reverse 0 [3, 4, 3] 4).2.1 (by decide) (by decide)).1,
   (C9_reverse 0 [3, 4, 3] 9).2.2 (by decide) (by decide),
   (C9_reverse 7 [3, 4, 3] 7).1 rfl⟩

/-- Claim C10, confirmed: `newTagTrans` rejects an empty tag map with
`ErrTagMapInvalid`; every translator it returns has length `len(tagMap) >= 1`,
and on such a translator `Translate` never hits the out-of-range fallback
access (it is total for every local tag and every Gravwell id). -/
theorem C10_translator_safety (g : String → Option Nat) (tagMap : List (String × Nat)) :
    (tagMap = [] → newTagTrans g tagMap = .err .tagMapInvalid) ∧
    (∀ tt2, newTagTrans g tagMap = .ok tt2 →
      tt2.length = tagMap.length ∧ 1 ≤ tt2.length ∧
      ∀ gw t, Translate gw tt2 t ≠ none) := by
  constructor
  · intro h
    subst h
    rfl
  · intro tt2 h
    unfold newTagTrans at h
    by_cases hlen : (List.replicate tagMap.length (0 : Nat)).length = 0
    · rw [if_pos hlen] at h
      exact absurd h (by simp)
    · rw [if_neg hlen] at h
      have hl := newTagTransLoop_length g tagMap _ tt2 h
      rw [List.length_replicate] at hl
      rw [List.length_replicate] at hlen
      have hpos : 1 ≤ tt2.length := by omega
      refine ⟨hl, hpos, ?_⟩
      intro gw t
      apply translate_ne_none
      intro hnil
      rw [hnil] at hpos
      simp at hpos

/-- Claim C10 witness: the empty map is rejected; a built translator carries
one remote id per tag-map entry and `Translate` on it never panics. -/
theorem C10_witness :
    newTagTrans (fun _ => some 7) ([] : List (String × Nat)) = .err .tagMapInvalid ∧
    Translate 0 [7] 5 ≠ none :=
  ⟨(C10_translator_safety (fun _ => some 7) []).1 rfl,
   ((C10_translator_safety (fun _ => some 7) [("a", 0)]).2 [7] rfl).2.2 0 5⟩

end GravwellIngest
